import Mathlib

/-!
Verification development for the `scache` in-memory key/value cache
(`cache.go` of github.com/safr/scache).

The Go program keeps two coupled structures inside `Cache`:

* `items    : map[string]*list.Element` — an index from key to the list node;
* `eviction : *list.List`               — a doubly-linked recency list,
  front = most recently used, back = least recently used;
* `capacity : int`.

Shallow embedding choices:

* `time.Time` and `time.Duration` are both modelled as `Int`
  (nanoseconds); `time.Now().Add(ttl)` becomes `now + ttl` and
  `a.After(b)` becomes `a > b` (Go's `After` is strict).
* the Go map is modelled as an association list `List (String × Entry)`
  whose keys are kept unique by construction (`mapInsert` deletes the
  key first, exactly as a Go map assignment overwrites);
* a `*list.Element` is modelled by the `Entry` value it carries; the
  operations that remove or move "the node `elem`" remove/move the first
  list occurrence of that value, which coincides with the Go node
  operation whenever the structural invariant (unique keys, map and list
  in sync) holds — the invariant every reachable state satisfies (C10);
* every operation takes the observation time `now : Int` explicitly,
  standing for the `time.Now()` call(s) the Go body performs;
* Go's `error` results are modelled by `Option String` (`none` = `nil`)
  for `Set`/`Flush` and by `Except String String` for `Get`, whose only
  error value in the source is `errors.New("key not found")`.
-/

namespace Scache

/-- Go `CacheItem`: the value and the absolute expiry time of an entry. -/
structure CacheItem where
  value : String
  expiryTime : Int
deriving DecidableEq, Repr

/-- Go `entry`: a cache item together with its key (the payload of a list node). -/
structure Entry where
  key : String
  value : CacheItem
deriving DecidableEq, Repr

/-- Go `Cache`: the key index, the recency list (head = front = MRU,
last = back = LRU) and the configured capacity.  The `sync.RWMutex` field
has no data content; which operations acquire it is modelled separately
by `acquiresLock`. -/
structure Cache where
  items : List (String × Entry)
  eviction : List Entry
  capacity : Int
deriving DecidableEq, Repr

/-- Go map read `elem, found := c.items[key]`. -/
def mapGet (m : List (String × Entry)) (k : String) : Option Entry :=
  (m.find? (fun p => p.1 == k)).map Prod.snd

/-- Go `delete(c.items, key)`. -/
def mapDelete (m : List (String × Entry)) (k : String) : List (String × Entry) :=
  m.filter (fun p => p.1 ≠ k)

/-- Go map assignment `c.items[key] = elem` (insert-or-overwrite). -/
def mapInsert (m : List (String × Entry)) (k : String) (e : Entry) : List (String × Entry) :=
  (k, e) :: mapDelete m k

/-- Go `c.eviction.MoveToFront(elem)`: the node moves to the front, the
rest of the list keeps its order. -/
def moveToFront (l : List Entry) (e : Entry) : List Entry :=
  e :: l.erase e

/-- Go `New(capacity)`: empty index, empty recency list. -/
def New (capacity : Int) : Cache :=
  { items := [], eviction := [], capacity := capacity }

/-- Go `evictLRU`: take the back of the recency list; if it exists,
remove the node and delete its key from the index; on an empty list do
nothing (`elem != nil` guard). -/
def evictLRU (c : Cache) : Cache :=
  match c.eviction.getLast? with
  | none => c
  | some kv =>
    { c with eviction := c.eviction.dropLast, items := mapDelete c.items kv.key }

/-- First phase of Go `Set`: `if elem, found := c.items[key]; found`
remove the old node from the recency list and delete the key from the
index. -/
def setRemoveOld (c : Cache) (key : String) : Cache :=
  match mapGet c.items key with
  | some elem =>
    { c with eviction := c.eviction.erase elem, items := mapDelete c.items key }
  | none => c

/-- Go `Set(key, value, ttl)`: remove the old entry for `key` if present,
evict the LRU entry when `c.eviction.Len() >= c.capacity`, then push a
fresh entry with `ExpiryTime = now + ttl` to the front and index it.
Always returns `nil` error (`none`). -/
def Set (c : Cache) (key value : String) (ttl now : Int) : Cache × Option String :=
  let c1 := setRemoveOld c key
  let c2 := if (c1.eviction.length : Int) ≥ c1.capacity then evictLRU c1 else c1
  let elem : Entry := { key := key, value := { value := value, expiryTime := now + ttl } }
  ({ c2 with eviction := elem :: c2.eviction, items := mapInsert c2.items key elem }, none)

/-- Go `Get(key)`: on a missing key return the "key not found" error; on
a present key whose expiry is strictly in the past (`time.Now().After`),
remove it from both structures and return the same error; otherwise move
the node to the front and return its value. -/
def Get (c : Cache) (key : String) (now : Int) : Cache × Except String String :=
  match mapGet c.items key with
  | none => (c, Except.error "key not found")
  | some elem =>
    if now > elem.value.expiryTime then
      ({ c with eviction := c.eviction.erase elem, items := mapDelete c.items key },
        Except.error "key not found")
    else
      ({ c with eviction := moveToFront c.eviction elem }, Except.ok elem.value.value)

/-- Go `Contains(key)`: `_, err := c.Get(key); return err == nil`. -/
def Contains (c : Cache) (key : String) (now : Int) : Cache × Bool :=
  let r := Get c key now
  (r.1, match r.2 with
        | Except.ok _ => true
        | Except.error _ => false)

/-- Go `Flush()`: reassign both structures to fresh empty ones; returns
`nil` error. -/
def Flush (c : Cache) : Cache × Option String :=
  ({ c with items := [], eviction := [] }, none)

/-- Body of the Go sweep loop for one map entry `key, elem`: if
`now.After(expiry)` remove the node from the recency list and delete the
key from the index. -/
def sweepStep (now : Int) (acc : Cache) (p : String × Entry) : Cache :=
  if now > p.2.value.expiryTime then
    { acc with eviction := acc.eviction.erase p.2, items := mapDelete acc.items p.1 }
  else acc

/-- Go `evictExpiredItems`: iterate over the index entries, removing
every strictly expired one from both structures.  Go map iteration order
is unspecified and the body only ever deletes the entry being visited,
so folding over the association list in its own order is a faithful
rendering of `for key, elem := range c.items`. -/
def evictExpiredItems (c : Cache) (now : Int) : Cache :=
  c.items.foldl (sweepStep now) c

/-- A sequence of `Set` calls, each given as (key, value, ttl, now). -/
def runSets (c : Cache) (ops : List (String × String × Int × Int)) : Cache :=
  ops.foldl (fun acc q => (Set acc q.1 q.2.1 q.2.2.1 q.2.2.2).1) c

/-- The LRU test scenario of the spec at capacity 3: insert `a`, `b`,
`c` with far-future expiry, read `b` and `c` (promoting them, leaving
`a` — the only key never re-read — at the back), then insert the fresh
key `d`. -/
def lruScenario : Cache :=
  let s1 := (Set (New 3) "a" "1" 100 0).1
  let s2 := (Set s1 "b" "2" 100 1).1
  let s3 := (Set s2 "c" "3" 100 2).1
  let s4 := (Get s3 "b" 3).1
  let s5 := (Get s4 "c" 4).1
  (Set s5 "d" "4" 100 5).1

/-- Structural consistency of the two coupled structures: every index
pair references an entry of the recency list whose stored key equals the
map key, every list entry is indexed under its key, keys are unique on
both sides (so each live entry appears exactly once in the list), and
the index and the list have the same size. -/
def wf (c : Cache) : Prop :=
  (∀ p ∈ c.items, p.2.key = p.1 ∧ p.2 ∈ c.eviction) ∧
  (∀ e ∈ c.eviction, (e.key, e) ∈ c.items) ∧
  (c.eviction.map Entry.key).Nodup ∧
  (c.items.map Prod.fst).Nodup ∧
  c.items.length = c.eviction.length

instance wfDecidable (c : Cache) : Decidable (wf c) := by
  unfold wf
  infer_instance

/-- The public operations of `cache.go`, for the lock-discipline model. -/
inductive CacheOp where
  | set
  | get
  | containsOp
  | flush
  | startEvictionTicker
  | sweep
deriving DecidableEq, Repr

/-- Transcription of which operations hold `c.mu` for their full
duration in `cache.go`: `Set` (line 42 `c.mu.Lock()` with deferred
unlock), `Get` (line 68), `Contains` (delegates to `Get`), the sweep
`evictExpiredItems` (line 119).  `Flush` (lines 91–95) reassigns
`c.items` and `c.eviction` without taking any lock, and
`StartEvictionTicker` itself only launches the sweeper goroutine. -/
def acquiresLock : CacheOp → Bool
  | CacheOp.set => true
  | CacheOp.get => true
  | CacheOp.containsOp => true
  | CacheOp.flush => false
  | CacheOp.startEvictionTicker => false
  | CacheOp.sweep => true

/-! Lemmas about the association-list model of the Go map. -/

lemma mem_mapDelete {m : List (String × Entry)} {k : String} {q : String × Entry} :
    q ∈ mapDelete m k ↔ q ∈ m ∧ q.1 ≠ k := by
  simp [mapDelete, List.mem_filter]

lemma mapDelete_eq_self {m : List (String × Entry)} {k : String}
    (h : ∀ p ∈ m, p.1 ≠ k) : mapDelete m k = m := by
  unfold mapDelete
  rw [List.filter_eq_self]
  intro p hp
  simpa using h p hp

lemma mapGet_eq_none {m : List (String × Entry)} {k : String} :
    mapGet m k = none ↔ ∀ p ∈ m, p.1 ≠ k := by
  simp [mapGet, List.find?_eq_none]

lemma mapGet_cons_ne {p : String × Entry} {t : List (String × Entry)} {k2 : String}
    (h : (p.1 == k2) = false) : mapGet (p :: t) k2 = mapGet t k2 := by
  simp [mapGet, List.find?_cons, h]

lemma mapGet_cons_eq {p : String × Entry} {t : List (String × Entry)} {k2 : String}
    (h : (p.1 == k2) = true) : mapGet (p :: t) k2 = some p.2 := by
  simp [mapGet, List.find?_cons, h]

lemma mapGet_some_mem {m : List (String × Entry)} {k : String} {e : Entry}
    (h : mapGet m k = some e) : (k, e) ∈ m := by
  unfold mapGet at h
  cases hf : m.find? (fun p => p.1 == k) with
  | none => rw [hf] at h; simp at h
  | some p =>
    rw [hf] at h
    simp only [Option.map_some', Option.some.injEq] at h
    have h1 := List.find?_some hf
    have h2 : p ∈ m := List.mem_of_find?_eq_some hf
    have h3 : p.1 = k := by simpa using h1
    have hpke : p = (k, e) := by
      cases p
      simp_all
    rwa [hpke] at h2

lemma mapGet_mapDelete_self (m : List (String × Entry)) (k : String) :
    mapGet (mapDelete m k) k = none := by
  rw [mapGet_eq_none]
  intro p hp
  exact (mem_mapDelete.mp hp).2

lemma mapGet_mapDelete_ne (m : List (String × Entry)) {k k2 : String} (h : k2 ≠ k) :
    mapGet (mapDelete m k) k2 = mapGet m k2 := by
  induction m with
  | nil => rfl
  | cons p t ih =>
    by_cases hp : p.1 = k
    · have hstep : mapDelete (p :: t) k = mapDelete t k := by
        simp [mapDelete, List.filter_cons, hp]
      have hne : (p.1 == k2) = false := by
        rw [hp, beq_eq_false_iff_ne]
        exact Ne.symm h
      rw [hstep, ih, mapGet_cons_ne hne]
    · have hstep : mapDelete (p :: t) k = p :: mapDelete t k := by
        simp [mapDelete, List.filter_cons, hp]
      rw [hstep]
      by_cases hk2 : p.1 = k2
      · have hb : (p.1 == k2) = true := by simp [hk2]
        rw [mapGet_cons_eq hb, mapGet_cons_eq hb]
      · have hb : (p.1 == k2) = false := by simp [hk2]
        rw [mapGet_cons_ne hb, mapGet_cons_ne hb, ih]

lemma mapGet_mapInsert_self (m : List (String × Entry)) (k : String) (e : Entry) :
    mapGet (mapInsert m k e) k = some e := by
  simp [mapGet, mapInsert, List.find?_cons]

lemma mapGet_mapInsert_ne (m : List (String × Entry)) {k k2 : String} (e : Entry)
    (h : k2 ≠ k) : mapGet (mapInsert m k e) k2 = mapGet m k2 := by
  have hne : ((k, e).1 == k2) = false := by
    rw [beq_eq_false_iff_ne]
    exact fun hh => h (hh.symm)
  show mapGet ((k, e) :: mapDelete m k) k2 = mapGet m k2
  rw [mapGet_cons_ne hne]
  exact mapGet_mapDelete_ne m h

lemma mapDelete_eq_erase {m : List (String × Entry)} {k : String} {e : Entry}
    (hn : (m.map Prod.fst).Nodup) (hm : (k, e) ∈ m) :
    mapDelete m k = m.erase (k, e) := by
  induction m with
  | nil => cases hm
  | cons p t ih =>
    rcases List.mem_cons.mp hm with hp | hp
    · subst hp
      have hk : k ∉ t.map Prod.fst := by
        simpa using (List.nodup_cons.mp hn).1
      have ht : mapDelete t k = t := by
        apply mapDelete_eq_self
        intro q hq hq1
        exact hk (hq1 ▸ List.mem_map_of_mem Prod.fst hq)
      have hstep : mapDelete ((k, e) :: t) k = mapDelete t k := by
        simp [mapDelete, List.filter_cons]
      rw [hstep, ht, List.erase_cons_head]
    · have hp1 : p.1 ≠ k := by
        intro hcon
        have hk : p.1 ∉ t.map Prod.fst := by
          simpa using (List.nodup_cons.mp hn).1
        exact hk (hcon ▸ List.mem_map_of_mem Prod.fst hp)
      have hpe : p ≠ (k, e) := by
        intro hcon
        exact hp1 (by rw [hcon])
      have hstep : mapDelete (p :: t) k = p :: mapDelete t k := by
        simp [mapDelete, List.filter_cons, hp1]
      rw [hstep, ih (List.nodup_cons.mp hn).2 hp, List.erase_cons_tail]
      simp [hpe]

/-! Lemmas about the structural invariant `wf`. -/

lemma wf_entries_nodup {c : Cache} (h : wf c) : c.eviction.Nodup :=
  h.2.2.1.of_map

lemma wf_key_inj {c : Cache} (h : wf c) {x y : Entry} (hx : x ∈ c.eviction)
    (hy : y ∈ c.eviction) (hk : x.key = y.key) : x = y :=
  List.inj_on_of_nodup_map h.2.2.1 hx hy hk

lemma mapGet_some_wf {c : Cache} {k : String} {e : Entry} (h : wf c)
    (hk : mapGet c.items k = some e) :
    e.key = k ∧ e ∈ c.eviction ∧ (k, e) ∈ c.items := by
  have hmem := mapGet_some_mem hk
  have h1 := h.1 (k, e) hmem
  exact ⟨h1.1, h1.2, hmem⟩

lemma wf_remove {c : Cache} {k : String} {e : Entry} (h : wf c)
    (hmem : (k, e) ∈ c.items) (hkey : e.key = k) :
    wf { c with items := mapDelete c.items k, eviction := c.eviction.erase e } := by
  obtain ⟨h1, h2, h3, h4, h5⟩ := h
  have he : e ∈ c.eviction := (h1 (k, e) hmem).2
  refine ⟨?_, ?_, ?_, ?_, ?_⟩
  · intro p hp
    obtain ⟨hpm, hpk⟩ := mem_mapDelete.mp hp
    obtain ⟨hpkey, hpev⟩ := h1 p hpm
    refine ⟨hpkey, ?_⟩
    have hpe : p.2 ≠ e := by
      intro hcon
      exact hpk (by rw [← hpkey, hcon, hkey])
    exact (List.mem_erase_of_ne hpe).mpr hpev
  · intro x hx
    obtain ⟨hxe, hxev⟩ :=
      (List.Nodup.mem_erase_iff (h3.of_map)).mp hx
    have hxm := h2 x hxev
    apply mem_mapDelete.mpr
    refine ⟨hxm, ?_⟩
    intro hcon
    exact hxe (List.inj_on_of_nodup_map h3 hxev he
      (show x.key = e.key from hcon.trans hkey.symm))
  · exact h3.sublist ((c.eviction.erase_sublist e).map Entry.key)
  · exact h4.sublist ((List.filter_sublist c.items).map Prod.fst)
  · rw [mapDelete_eq_erase h4 hmem, List.length_erase_of_mem hmem,
      List.length_erase_of_mem he, h5]

lemma wf_insert {c : Cache} {k : String} {e : Entry} (h : wf c)
    (hnew : ∀ p ∈ c.items, p.1 ≠ k) (hkey : e.key = k) :
    wf { c with items := mapInsert c.items k e, eviction := e :: c.eviction } := by
  obtain ⟨h1, h2, h3, h4, h5⟩ := h
  have hins : mapInsert c.items k e = (k, e) :: c.items := by
    unfold mapInsert
    rw [mapDelete_eq_self hnew]
  have hkev : ∀ x ∈ c.eviction, x.key ≠ k := by
    intro x hx hcon
    exact hnew (x.key, x) (h2 x hx) hcon
  refine ⟨?_, ?_, ?_, ?_, ?_⟩
  · intro p hp
    rw [hins] at hp
    rcases List.mem_cons.mp hp with hp | hp
    · subst hp
      exact ⟨hkey, List.mem_cons_self e c.eviction⟩
    · obtain ⟨hpkey, hpev⟩ := h1 p hp
      exact ⟨hpkey, List.mem_cons_of_mem e hpev⟩
  · intro x hx
    rw [hins]
    rcases List.mem_cons.mp hx with hx | hx
    · subst hx
      rw [hkey]
      exact List.mem_cons_self (k, x) c.items
    · exact List.mem_cons_of_mem (k, e) (h2 x hx)
  · simp only [List.map_cons, List.nodup_cons]
    refine ⟨?_, h3⟩
    intro hcon
    obtain ⟨x, hx, hxk⟩ := List.mem_map.mp hcon
    exact hkev x hx (by rw [hxk, hkey])
  · rw [hins]
    simp only [List.map_cons, List.nodup_cons]
    refine ⟨?_, h4⟩
    intro hcon
    obtain ⟨p, hp, hpk⟩ := List.mem_map.mp hcon
    exact hnew p hp hpk
  · rw [hins]
    simp only [List.length_cons, h5]

lemma wf_moveToFront {c : Cache} {e : Entry} (h : wf c) (he : e ∈ c.eviction) :
    wf { c with eviction := moveToFront c.eviction e } := by
  obtain ⟨h1, h2, h3, h4, h5⟩ := h
  have hnd : c.eviction.Nodup := h3.of_map
  refine ⟨?_, ?_, ?_, h4, ?_⟩
  · intro p hp
    obtain ⟨hpkey, hpev⟩ := h1 p hp
    refine ⟨hpkey, ?_⟩
    unfold moveToFront
    by_cases hpe : p.2 = e
    · rw [hpe]
      exact List.mem_cons_self e _
    · exact List.mem_cons_of_mem e ((List.mem_erase_of_ne hpe).mpr hpev)
  · intro x hx
    unfold moveToFront at hx
    rcases List.mem_cons.mp hx with hx | hx
    · subst hx
      exact h2 x he
    · exact h2 x (List.mem_of_mem_erase hx)
  · unfold moveToFront
    simp only [List.map_cons, List.nodup_cons]
    refine ⟨?_, h3.sublist ((c.eviction.erase_sublist e).map Entry.key)⟩
    intro hcon
    obtain ⟨x, hx, hxk⟩ := List.mem_map.mp hcon
    obtain ⟨hxe, hxev⟩ := (List.Nodup.mem_erase_iff hnd).mp hx
    exact hxe (List.inj_on_of_nodup_map h3 hxev he hxk)
  · unfold moveToFront
    simp only [List.length_cons, List.length_erase_of_mem he, h5]
    have : 1 ≤ c.eviction.length := List.length_pos.mpr (List.ne_nil_of_mem he)
    omega

lemma eq_dropLast_concat {α : Type} (l : List α) (b : α) (h : l.getLast? = some b) :
    l = l.dropLast ++ [b] := by
  induction l with
  | nil => cases h
  | cons a t ih =>
    cases t with
    | nil =>
      simp only [List.getLast?_singleton, Option.some.injEq] at h
      simp [h]
    | cons x t2 =>
      rw [List.getLast?_cons_cons] at h
      have := ih h
      rw [List.dropLast_cons₂, List.cons_append]
      exact congrArg (a :: ·) this

lemma evictLRU_wf {c : Cache} (h : wf c) : wf (evictLRU c) := by
  unfold evictLRU
  cases hb : c.eviction.getLast? with
  | none => exact h
  | some b =>
    have hsplit := eq_dropLast_concat c.eviction b hb
    have hbev : b ∈ c.eviction := by
      rw [hsplit]
      exact List.mem_append_right _ (List.mem_singleton_self b)
    have hbm : (b.key, b) ∈ c.items := h.2.1 b hbev
    have herase : c.eviction.erase b = c.eviction.dropLast := by
      have hnd : c.eviction.Nodup := wf_entries_nodup h
      have hnotin : b ∉ c.eviction.dropLast := by
        intro hcon
        rw [hsplit] at hnd
        exact (List.disjoint_of_nodup_append hnd) hcon (List.mem_singleton_self b)
      conv_lhs => rw [hsplit]
      rw [List.erase_append_right _ hnotin, List.erase_cons_head, List.append_nil]
    have := wf_remove h hbm rfl
    rwa [herase] at this

/-! Preservation of `wf` by each operation. -/

lemma setRemoveOld_wf {c : Cache} (k : String) (h : wf c) :
    wf (setRemoveOld c k) ∧ (∀ p ∈ (setRemoveOld c k).items, p.1 ≠ k) ∧
    (setRemoveOld c k).capacity = c.capacity := by
  unfold setRemoveOld
  cases hg : mapGet c.items k with
  | none =>
    refine ⟨h, ?_, rfl⟩
    intro p hp
    exact (mapGet_eq_none.mp hg) p hp
  | some e =>
    obtain ⟨hkey, _, hmem⟩ := mapGet_some_wf h hg
    refine ⟨wf_remove h hmem hkey, ?_, rfl⟩
    intro p hp
    exact (mem_mapDelete.mp hp).2

lemma evictLRU_items_subset {c : Cache} {p : String × Entry}
    (hp : p ∈ (evictLRU c).items) : p ∈ c.items := by
  unfold evictLRU at hp
  cases hb : c.eviction.getLast? with
  | none => rw [hb] at hp; exact hp
  | some b =>
    rw [hb] at hp
    exact (mem_mapDelete.mp hp).1

lemma evictLRU_capacity (c : Cache) : (evictLRU c).capacity = c.capacity := by
  unfold evictLRU
  cases c.eviction.getLast? <;> rfl

lemma set_wf {c : Cache} (k v : String) (ttl now : Int) (h : wf c) :
    wf (Set c k v ttl now).1 := by
  obtain ⟨h1, h2, h3⟩ := setRemoveOld_wf k h
  simp only [Set]
  set c1 := setRemoveOld c k with hc1
  by_cases hcap : ((c1.eviction.length : Int) ≥ c1.capacity)
  · rw [if_pos hcap]
    refine wf_insert (evictLRU_wf h1) ?_ rfl
    intro p hp
    exact h2 p (evictLRU_items_subset hp)
  · rw [if_neg hcap]
    exact wf_insert h1 h2 rfl

lemma get_wf {c : Cache} (k : String) (now : Int) (h : wf c) :
    wf (Get c k now).1 := by
  cases hg : mapGet c.items k with
  | none =>
    simp only [Get, hg]
    exact h
  | some e =>
    obtain ⟨hkey, hev, hmem⟩ := mapGet_some_wf h hg
    by_cases hexp : now > e.value.expiryTime
    · simp only [Get, hg, if_pos hexp]
      exact wf_remove h hmem hkey
    · simp only [Get, hg, if_neg hexp]
      exact wf_moveToFront h hev

lemma contains_state (c : Cache) (k : String) (now : Int) :
    (Contains c k now).1 = (Get c k now).1 := rfl

lemma flush_wf (c : Cache) : wf (Flush c).1 := by
  refine ⟨?_, ?_, ?_, ?_, rfl⟩ <;> simp [Flush]

/-! The background sweep: a fold over the index entries. -/

lemma sweep_go (now : Int) (rest : List (String × Entry)) :
    ∀ acc : Cache, wf acc → (∀ p ∈ rest, p ∈ acc.items) →
      (rest.map Prod.fst).Nodup →
      wf (rest.foldl (sweepStep now) acc) ∧
      (∀ q, q ∈ (rest.foldl (sweepStep now) acc).items ↔
        (q ∈ acc.items ∧ (q ∈ rest → ¬ now > q.2.value.expiryTime))) := by
  induction rest with
  | nil =>
    intro acc hwf _ _
    refine ⟨hwf, ?_⟩
    intro q
    simp
  | cons p t ih =>
    intro acc hwf hmem hnd
    have hp : p ∈ acc.items := hmem p (List.mem_cons_self p t)
    have hndt : (t.map Prod.fst).Nodup := (List.nodup_cons.mp hnd).2
    have hpt : p.1 ∉ t.map Prod.fst := (List.nodup_cons.mp hnd).1
    by_cases hexp : now > p.2.value.expiryTime
    · have hstep : sweepStep now acc p =
          { acc with eviction := acc.eviction.erase p.2,
                     items := mapDelete acc.items p.1 } := by
        unfold sweepStep
        rw [if_pos hexp]
      obtain ⟨hkeyp, _⟩ := hwf.1 p hp
      have hwf2 : wf (sweepStep now acc p) := by
        rw [hstep]
        have : (p.1, p.2) ∈ acc.items := hp
        exact wf_remove hwf this hkeyp
      have hmem2 : ∀ q ∈ t, q ∈ (sweepStep now acc p).items := by
        intro q hq
        rw [hstep]
        apply mem_mapDelete.mpr
        refine ⟨hmem q (List.mem_cons_of_mem p hq), ?_⟩
        intro hcon
        exact hpt (hcon ▸ List.mem_map_of_mem Prod.fst hq)
      simp only [List.foldl_cons]
      obtain ⟨hwf3, hchar⟩ := ih (sweepStep now acc p) hwf2 hmem2 hndt
      refine ⟨hwf3, ?_⟩
      intro q
      rw [hchar q]
      constructor
      · rintro ⟨hq1, hq2⟩
        rw [hstep] at hq1
        obtain ⟨hqa, hqk⟩ := mem_mapDelete.mp hq1
        refine ⟨hqa, ?_⟩
        intro hqin
        rcases List.mem_cons.mp hqin with hqp | hqt
        · exact absurd (congrArg Prod.fst hqp) hqk
        · exact hq2 hqt
      · rintro ⟨hq1, hq2⟩
        have hqk : q.1 ≠ p.1 := by
          intro hcon
          have hqp : q = p :=
            List.inj_on_of_nodup_map hwf.2.2.2.1 hq1 hp hcon
          exact hq2 (hqp ▸ List.mem_cons_self p t) (hqp ▸ hexp)
        refine ⟨?_, fun hqt => hq2 (List.mem_cons_of_mem p hqt)⟩
        rw [hstep]
        exact mem_mapDelete.mpr ⟨hq1, hqk⟩
    · have hstep : sweepStep now acc p = acc := by
        unfold sweepStep
        rw [if_neg hexp]
      simp only [List.foldl_cons, hstep]
      have hmem2 : ∀ q ∈ t, q ∈ acc.items :=
        fun q hq => hmem q (List.mem_cons_of_mem p hq)
      obtain ⟨hwf3, hchar⟩ := ih acc hwf hmem2 hndt
      refine ⟨hwf3, ?_⟩
      intro q
      rw [hchar q]
      constructor
      · rintro ⟨hq1, hq2⟩
        refine ⟨hq1, ?_⟩
        intro hqin
        rcases List.mem_cons.mp hqin with hqp | hqt
        · exact hqp ▸ hexp
        · exact hq2 hqt
      · rintro ⟨hq1, hq2⟩
        exact ⟨hq1, fun hqt => hq2 (List.mem_cons_of_mem p hqt)⟩

lemma sweep_wf {c : Cache} (now : Int) (h : wf c) :
    wf (evictExpiredItems c now) :=
  (sweep_go now c.items c h (fun _ hp => hp) h.2.2.2.1).1

lemma sweep_items_char {c : Cache} (now : Int) (h : wf c) :
    ∀ q, q ∈ (evictExpiredItems c now).items ↔
      (q ∈ c.items ∧ ¬ now > q.2.value.expiryTime) := by
  intro q
  have hgo := (sweep_go now c.items c h (fun _ hp => hp) h.2.2.2.1).2 q
  unfold evictExpiredItems
  rw [hgo]
  constructor
  · rintro ⟨hq1, hq2⟩
    exact ⟨hq1, hq2 hq1⟩
  · rintro ⟨hq1, hq2⟩
    exact ⟨hq1, fun _ => hq2⟩

lemma mem_eviction_iff_items {c : Cache} (h : wf c) (e : Entry) :
    e ∈ c.eviction ↔ (e.key, e) ∈ c.items := by
  constructor
  · exact h.2.1 e
  · intro hm
    exact (h.1 (e.key, e) hm).2

lemma sweep_eviction_char {c : Cache} (now : Int) (h : wf c) :
    ∀ e, e ∈ (evictExpiredItems c now).eviction ↔
      (e ∈ c.eviction ∧ ¬ now > e.value.expiryTime) := by
  intro e
  rw [mem_eviction_iff_items (sweep_wf now h) e, sweep_items_char now h,
    ← mem_eviction_iff_items h e]

/-! Size and capacity bookkeeping, and the shape of a `Set` result. -/

lemma wf_New (cap : Int) : wf (New cap) := by
  refine ⟨?_, ?_, ?_, ?_, rfl⟩ <;> simp [New]

lemma setRemoveOld_capacity (c : Cache) (k : String) :
    (setRemoveOld c k).capacity = c.capacity := by
  unfold setRemoveOld
  cases mapGet c.items k <;> rfl

lemma setRemoveOld_len (c : Cache) (k : String) :
    (setRemoveOld c k).eviction.length ≤ c.eviction.length := by
  unfold setRemoveOld
  cases mapGet c.items k with
  | none => exact le_refl _
  | some e => exact (c.eviction.erase_sublist e).length_le

lemma eviction_ne_nil_of_getLast?_eq_none {c : Cache}
    (hb : c.eviction.getLast? = none) : c.eviction = [] := by
  cases hev : c.eviction with
  | nil => rfl
  | cons a t =>
    exfalso
    have hs : c.eviction.getLast?.isSome := by
      rw [hev]
      simp [List.getLast?_isSome]
    rw [hb] at hs
    simp at hs

lemma evictLRU_len {c : Cache} (h : c.eviction ≠ []) :
    (evictLRU c).eviction.length = c.eviction.length - 1 := by
  unfold evictLRU
  cases hb : c.eviction.getLast? with
  | none => exact absurd (eviction_ne_nil_of_getLast?_eq_none hb) h
  | some b => simp [List.length_dropLast]

lemma set_capacity (c : Cache) (k v : String) (ttl now : Int) :
    (Set c k v ttl now).1.capacity = c.capacity := by
  simp only [Set]
  by_cases hcond :
      (((setRemoveOld c k).eviction.length : Int) ≥ (setRemoveOld c k).capacity)
  · rw [if_pos hcond]
    show (evictLRU (setRemoveOld c k)).capacity = c.capacity
    rw [evictLRU_capacity, setRemoveOld_capacity]
  · rw [if_neg hcond]
    exact setRemoveOld_capacity c k

lemma set_len {c : Cache} (k v : String) (ttl now : Int)
    (hcap : 1 ≤ c.capacity) (hlen : (c.eviction.length : Int) ≤ c.capacity) :
    ((Set c k v ttl now).1.eviction.length : Int) ≤ c.capacity := by
  have h3 := setRemoveOld_capacity c k
  have hlen1 := setRemoveOld_len c k
  simp only [Set]
  by_cases hcond :
      (((setRemoveOld c k).eviction.length : Int) ≥ (setRemoveOld c k).capacity)
  · rw [if_pos hcond]
    show ((evictLRU (setRemoveOld c k)).eviction.length + 1 : Int) ≤ c.capacity
    have hne : (setRemoveOld c k).eviction ≠ [] := by
      intro hcon
      rw [hcon] at hcond
      rw [h3] at hcond
      simp at hcond
      omega
    have hdrop := evictLRU_len hne
    have hpos : 1 ≤ (setRemoveOld c k).eviction.length :=
      List.length_pos.mpr hne
    rw [hdrop]
    omega
  · rw [if_neg hcond]
    show (((setRemoveOld c k).eviction.length + 1 : Int)) ≤ c.capacity
    rw [h3] at hcond
    omega

lemma runSets_inv (ops : List (String × String × Int × Int)) :
    ∀ c : Cache, wf c → 1 ≤ c.capacity → (c.eviction.length : Int) ≤ c.capacity →
      wf (runSets c ops) ∧ (runSets c ops).capacity = c.capacity ∧
      ((runSets c ops).eviction.length : Int) ≤ c.capacity := by
  induction ops with
  | nil =>
    intro c h1 _ h3
    exact ⟨h1, rfl, h3⟩
  | cons q t ih =>
    intro c h1 h2 h3
    have hwf2 := set_wf q.1 q.2.1 q.2.2.1 q.2.2.2 h1
    have hcap2 := set_capacity c q.1 q.2.1 q.2.2.1 q.2.2.2
    have hlen2 := set_len q.1 q.2.1 q.2.2.1 q.2.2.2 h2 h3
    have hstep : runSets c (q :: t) = runSets (Set c q.1 q.2.1 q.2.2.1 q.2.2.2).1 t := by
      simp [runSets]
    rw [hstep]
    have hrec := ih (Set c q.1 q.2.1 q.2.2.1 q.2.2.2).1 hwf2
      (by rw [hcap2]; exact h2) (by rw [hcap2]; exact hlen2)
    exact ⟨hrec.1, by rw [hrec.2.1, hcap2], by rw [← hcap2]; exact hrec.2.2⟩

lemma set_result (c : Cache) (k v : String) (ttl now : Int) :
    ∃ c2 : Cache,
      Set c k v ttl now =
        ({ c2 with
            eviction := { key := k, value := { value := v, expiryTime := now + ttl } }
              :: c2.eviction,
            items := mapInsert c2.items k
              { key := k, value := { value := v, expiryTime := now + ttl } } }, none) :=
  ⟨_, rfl⟩

lemma get_after_set (c : Cache) (k v : String) (ttl now now2 : Int) :
    (now2 > now + ttl →
      (Get (Set c k v ttl now).1 k now2).2 = Except.error "key not found") ∧
    (¬ now2 > now + ttl →
      (Get (Set c k v ttl now).1 k now2).2 = Except.ok v) := by
  obtain ⟨c2, hc2⟩ := set_result c k v ttl now
  rw [hc2]
  constructor
  · intro hgt
    simp only [Get, mapGet_mapInsert_self, if_pos hgt]
  · intro hle
    simp only [Get, mapGet_mapInsert_self, if_neg hle]

lemma evictLRU_nil {c : Cache} (h : c.eviction = []) : evictLRU c = c := by
  simp [evictLRU, h]

lemma set_singleton_of_degenerate (c : Cache) (k v : String) (ttl now : Int)
    (hcap : c.capacity ≤ 0) (hsize : c.eviction.length ≤ 1) :
    (Set c k v ttl now).1.eviction =
      [{ key := k, value := { value := v, expiryTime := now + ttl } }] := by
  have hcond :
      (((setRemoveOld c k).eviction.length : Int) ≥ (setRemoveOld c k).capacity) := by
    rw [setRemoveOld_capacity]
    have hge : (0 : Int) ≤ ((setRemoveOld c k).eviction.length : Int) :=
      Int.ofNat_nonneg _
    omega
  have hlen1 : (setRemoveOld c k).eviction.length ≤ 1 :=
    le_trans (setRemoveOld_len c k) hsize
  have hempty : (evictLRU (setRemoveOld c k)).eviction = [] := by
    cases hev : (setRemoveOld c k).eviction with
    | nil =>
      rw [evictLRU_nil hev, hev]
    | cons a t =>
      have ht : t = [] := by
        rw [hev] at hlen1
        simpa using hlen1
      subst ht
      simp [evictLRU, hev]
  simp only [Set, if_pos hcond]
  rw [hempty]

/-! The claims. -/

/-- C1 (counterexample): the claim as stated is false at capacity 0.
`New(0)` followed by a single `Set` (a sequence with N = 1 ≥ 0 distinct
keys) leaves one live entry, exceeding the configured capacity 0: in
`Set` the capacity check triggers `evictLRU`, which is a no-op on the
empty recency list, and the insertion then proceeds unconditionally. -/
theorem C1_counterexample :
    ((Set (New 0) "a" "v" 1 0).1.eviction.length : Int) > (New 0).capacity := by
  decide

/-- C1 (amended): for every capacity ≥ 1 and every sequence of `Set`
calls on a cache built by `New`, the number of live entries never
exceeds the capacity at any observation point (each prefix of the
sequence is itself such a sequence, so all intermediate states are
covered); eviction precedes insertion inside `Set`. -/
theorem C1_capacity_bound (cap : Int) (ops : List (String × String × Int × Int))
    (h : 1 ≤ cap) :
    ((runSets (New cap) ops).eviction.length : Int) ≤ cap := by
  have hrun := runSets_inv ops (New cap) (wf_New cap) h (by simp [New]; omega)
  exact hrun.2.2

theorem C1_witness :
    ((runSets (New 1) [("a", "v", 1, 0), ("b", "w", 1, 1), ("c", "u", 1, 2)]).eviction.length : Int) ≤ 1 :=
  C1_capacity_bound 1 [("a", "v", 1, 0), ("b", "w", 1, 1), ("c", "u", 1, 2)] (by decide)

/-- C2: capacity-based eviction removes exactly one entry — the current
back of the recency order — regardless of expiry times: a `Set` of a
fresh key on a cache whose recency list has reached capacity yields
exactly the new entry in front of the old list minus its back.
Moreover, in the spec's concrete scenario (capacity 3, insert `a`, `b`,
`c`, read all but the oldest `a`, insert `d`) exactly the never-re-read
key `a` is evicted: the surviving keys are `d`, `c`, `b`. -/
theorem C2_lru_back_eviction (c : Cache) (k v : String) (ttl now : Int) (back : Entry)
    (hfresh : mapGet c.items k = none)
    (hfull : (c.eviction.length : Int) ≥ c.capacity)
    (hback : c.eviction.getLast? = some back) :
    (Set c k v ttl now).1.eviction =
      { key := k, value := { value := v, expiryTime := now + ttl } }
        :: c.eviction.dropLast ∧
    lruScenario.eviction.map Entry.key = ["d", "c", "b"] := by
  constructor
  · have hrem : setRemoveOld c k = c := by
      unfold setRemoveOld
      rw [hfresh]
    have hev2 : evictLRU c =
        { c with eviction := c.eviction.dropLast,
                 items := mapDelete c.items back.key } := by
      unfold evictLRU
      rw [hback]
    simp only [Set, hrem, if_pos hfull, hev2]
  · decide

theorem C2_witness :
    (Set (Set (New 1) "x" "v" 5 0).1 "y" "w" 5 1).1.eviction =
      { key := "y", value := { value := "w", expiryTime := 6 } }
        :: (Set (New 1) "x" "v" 5 0).1.eviction.dropLast ∧
    lruScenario.eviction.map Entry.key = ["d", "c", "b"] :=
  C2_lru_back_eviction (Set (New 1) "x" "v" 5 0).1 "y" "w" 5 1
    { key := "x", value := { value := "v", expiryTime := 5 } }
    (by decide) (by decide) (by decide)

/-- C3: the lock-discipline table transcribed from `cache.go`.  `Set`,
`Get` (and through it `Contains`) and the sweep body hold `c.mu` for
their full duration, but `Flush` reassigns both shared structures
without acquiring the lock at all — contradicting the claim (and the
code's own "thread-safe" doc comment on `Cache`). -/
theorem C3_flush_unlocked :
    acquiresLock CacheOp.flush = false ∧
    acquiresLock CacheOp.set = true ∧
    acquiresLock CacheOp.get = true ∧
    acquiresLock CacheOp.containsOp = true ∧
    acquiresLock CacheOp.sweep = true :=
  ⟨rfl, rfl, rfl, rfl, rfl⟩

/-- C4 (counterexample): the claim's boundary is wrong.  `Set(k,v,ttl)`
at time 0 with ttl = 10 gives expiry 10; a `Get` at observation time 10
(elapsed time exactly equal to ttl, i.e. "at expiryTime") still returns
the value, because the code uses the strict `time.Now().After(expiry)`
test, not `now ≥ expiry`. -/
theorem C4_counterexample :
    (Get (Set (New 10) "k" "v" 10 0).1 "k" 10).2 = Except.ok "v" ∧
    (10 : Int) ≥ 0 + 10 := by
  constructor
  · rfl
  · decide

/-- C4 (amended): an entry stored by `Set(key, value, ttl)` at time t1
is expired for `Get` exactly when the observation time is strictly past
`t1 + ttl`: a `Get` at t2 > t1 + ttl returns the NotFound error, a
`Get` at t2 ≤ t1 + ttl returns the value, and an entry with zero or
negative ttl is reported not found by any strictly later `Get`. -/
theorem C4_ttl_boundary (c : Cache) (k v : String) (ttl t1 t2 : Int) :
    (t2 > t1 + ttl →
      (Get (Set c k v ttl t1).1 k t2).2 = Except.error "key not found") ∧
    (t2 ≤ t1 + ttl → (Get (Set c k v ttl t1).1 k t2).2 = Except.ok v) ∧
    (ttl ≤ 0 → t2 > t1 →
      (Get (Set c k v ttl t1).1 k t2).2 = Except.error "key not found") := by
  obtain ⟨h1, h2⟩ := get_after_set c k v ttl t1 t2
  exact ⟨h1, fun hle => h2 (by omega), fun httl ht2 => h1 (by omega)⟩

theorem C4_witness :
    (Get (Set (New 2) "p" "w" 3 0).1 "p" 4).2 = Except.error "key not found" ∧
    (Get (Set (New 2) "p" "w" 3 0).1 "p" 3).2 = Except.ok "w" :=
  ⟨(C4_ttl_boundary (New 2) "p" "w" 3 0 4).1 (by decide),
   (C4_ttl_boundary (New 2) "p" "w" 3 0 3).2.1 (by decide)⟩

/-- C5 (counterexample): the claim's expiry condition "now ≥ expiryTime"
is wrong at the boundary: a key with expiry 8 read at observation time 8
succeeds (the code's test `time.Now().After(expiry)` is strict), where
the claim demands NotFound. -/
theorem C5_counterexample :
    (Get (Set (New 5) "m" "u" 7 1).1 "m" 8).2 = Except.ok "u" ∧
    (8 : Int) ≥ 1 + 7 := by
  constructor
  · rfl
  · decide

/-- C5 (amended): on a structurally consistent cache, `Get(key)` returns
the NotFound error iff the key is absent from the index or its entry is
strictly expired (now > expiryTime); in the expired case the entry is
removed from both the index and the recency order even though the caller
only asked to read; and NotFound ("key not found") is the sole non-success
outcome of `Get`. -/
theorem C5_get_notfound (c : Cache) (k : String) (now : Int) (h : wf c) :
    ((Get c k now).2 = Except.error "key not found" ↔
      (mapGet c.items k = none ∨
        ∃ e, mapGet c.items k = some e ∧ now > e.value.expiryTime)) ∧
    (∀ e, mapGet c.items k = some e → now > e.value.expiryTime →
      mapGet (Get c k now).1.items k = none ∧ e ∉ (Get c k now).1.eviction) ∧
    (∀ s, (Get c k now).2 = Except.error s → s = "key not found") := by
  cases hg : mapGet c.items k with
  | none =>
    simp only [Get, hg]
    refine ⟨by simp, ?_, ?_⟩
    · intro e he
      cases he
    · intro s hs
      injection hs with h1
      exact h1.symm
  | some e0 =>
    have hnd : c.eviction.Nodup := wf_entries_nodup h
    by_cases hexp : now > e0.value.expiryTime
    · simp only [Get, hg, if_pos hexp]
      refine ⟨?_, ?_, ?_⟩
      · constructor
        · intro _
          exact Or.inr ⟨e0, rfl, hexp⟩
        · intro _
          trivial
      · intro e hge _
        have he0 : e0 = e := by injection hge
        subst he0
        constructor
        · exact mapGet_mapDelete_self c.items k
        · intro hcon
          exact ((List.Nodup.mem_erase_iff hnd).mp hcon).1 rfl
      · intro s hs
        injection hs with h1
        exact h1.symm
    · simp only [Get, hg, if_neg hexp]
      refine ⟨?_, ?_, ?_⟩
      · constructor
        · intro hcon
          cases hcon
        · rintro (hcon | ⟨e, heq, hexp2⟩)
          · cases hcon
          · have he0 : e0 = e := by injection heq
            exact absurd (he0 ▸ hexp2) hexp
      · intro e hge hexp2
        have he0 : e0 = e := by injection hge
        exact absurd (he0 ▸ hexp2) hexp
      · intro s hs
        cases hs

theorem C5_witness :
    mapGet (Get (Set (New 2) "a" "x" 5 0).1 "a" 6).1.items "a" = none ∧
    ({ key := "a", value := { value := "x", expiryTime := 5 } } : Entry) ∉
      (Get (Set (New 2) "a" "x" 5 0).1 "a" 6).1.eviction :=
  (C5_get_notfound (Set (New 2) "a" "x" 5 0).1 "a" 6 (by decide)).2.1
    { key := "a", value := { value := "x", expiryTime := 5 } }
    (by decide) (by decide)

/-- C6: overwriting a key on a full, structurally consistent cache
evicts nothing else: every other key's index entry is unchanged, every
other entry's recency-list membership is unchanged, and a subsequent
non-expired `Get` of the overwritten key returns the new value. -/
theorem C6_overwrite_frame (c : Cache) (k v2 : String) (ttl now now2 : Int) (e : Entry)
    (h : wf c) (hfull : (c.eviction.length : Int) = c.capacity)
    (hk : mapGet c.items k = some e) :
    (∀ k2, k2 ≠ k →
      mapGet (Set c k v2 ttl now).1.items k2 = mapGet c.items k2) ∧
    (∀ e2 : Entry, e2.key ≠ k →
      (e2 ∈ (Set c k v2 ttl now).1.eviction ↔ e2 ∈ c.eviction)) ∧
    (¬ now2 > now + ttl → (Get (Set c k v2 ttl now).1 k now2).2 = Except.ok v2) := by
  obtain ⟨hkey, hev, hmem⟩ := mapGet_some_wf h hk
  have hpos : 1 ≤ c.eviction.length := List.length_pos.mpr (List.ne_nil_of_mem hev)
  have hrem : setRemoveOld c k =
      { c with eviction := c.eviction.erase e, items := mapDelete c.items k } := by
    unfold setRemoveOld
    rw [hk]
  have hcond : ¬ (((c.eviction.erase e).length : Int) ≥ c.capacity) := by
    rw [List.length_erase_of_mem hev]
    omega
  have hset : (Set c k v2 ttl now).1 =
      { c with
          eviction := { key := k, value := { value := v2, expiryTime := now + ttl } }
            :: c.eviction.erase e,
          items := mapInsert (mapDelete c.items k) k
            { key := k, value := { value := v2, expiryTime := now + ttl } } } := by
    simp only [Set, hrem, if_neg hcond]
  refine ⟨?_, ?_, (get_after_set c k v2 ttl now now2).2⟩
  · intro k2 hk2
    rw [hset]
    show mapGet (mapInsert (mapDelete c.items k) k _) k2 = mapGet c.items k2
    rw [mapGet_mapInsert_ne _ _ hk2, mapGet_mapDelete_ne _ hk2]
  · intro e2 he2
    rw [hset]
    show e2 ∈ { key := k, value := { value := v2, expiryTime := now + ttl } }
        :: c.eviction.erase e ↔ e2 ∈ c.eviction
    have hne1 : e2 ≠ { key := k, value := { value := v2, expiryTime := now + ttl } } := by
      intro hcon
      exact he2 (by rw [hcon])
    have hne2 : e2 ≠ e := by
      intro hcon
      exact he2 (by rw [hcon, hkey])
    rw [List.mem_cons]
    constructor
    · rintro (hcon | hmem2)
      · exact absurd hcon hne1
      · exact (List.mem_erase_of_ne hne2).mp hmem2
    · intro hmem2
      exact Or.inr ((List.mem_erase_of_ne hne2).mpr hmem2)

theorem C6_witness :
    mapGet (Set (Set (New 1) "k" "v1" 100 0).1 "k" "v2" 100 1).1.items "other" =
      mapGet (Set (New 1) "k" "v1" 100 0).1.items "other" ∧
    (Get (Set (Set (New 1) "k" "v1" 100 0).1 "k" "v2" 100 1).1 "k" 2).2 =
      Except.ok "v2" :=
  ⟨(C6_overwrite_frame (Set (New 1) "k" "v1" 100 0).1 "k" "v2" 100 1 2
      { key := "k", value := { value := "v1", expiryTime := 100 } }
      (by decide) (by decide) (by decide)).1 "other" (by decide),
   (C6_overwrite_frame (Set (New 1) "k" "v1" 100 0).1 "k" "v2" 100 1 2
      { key := "k", value := { value := "v1", expiryTime := 100 } }
      (by decide) (by decide) (by decide)).2.2 (by decide)⟩

/-- C7: a single sweep pass (`evictExpiredItems`) at time `now` removes
exactly the strictly expired entries from both the index and the recency
order — independent of whether they are ever read — and leaves every
non-expired entry in place. -/
theorem C7_sweep_exact (c : Cache) (now : Int) (h : wf c) :
    (∀ q, q ∈ (evictExpiredItems c now).items ↔
      (q ∈ c.items ∧ ¬ now > q.2.value.expiryTime)) ∧
    (∀ e, e ∈ (evictExpiredItems c now).eviction ↔
      (e ∈ c.eviction ∧ ¬ now > e.value.expiryTime)) :=
  ⟨sweep_items_char now h, sweep_eviction_char now h⟩

theorem C7_witness :
    ("a", ({ key := "a", value := { value := "x", expiryTime := 5 } } : Entry)) ∉
      (evictExpiredItems (Set (Set (New 3) "a" "x" 5 0).1 "b" "y" 100 0).1 10).items ∧
    ({ key := "b", value := { value := "y", expiryTime := 100 } } : Entry) ∈
      (evictExpiredItems (Set (Set (New 3) "a" "x" 5 0).1 "b" "y" 100 0).1 10).eviction := by
  constructor
  · intro hmem
    have hchar :=
      ((C7_sweep_exact (Set (Set (New 3) "a" "x" 5 0).1 "b" "y" 100 0).1 10
        (by decide)).1 _).mp hmem
    exact (by decide : ¬ ¬ (10 : Int) > 5) hchar.2
  · exact ((C7_sweep_exact (Set (Set (New 3) "a" "x" 5 0).1 "b" "y" 100 0).1 10
      (by decide)).2 _).mpr ⟨by decide, by decide⟩

/-- C8: `Contains` is `Get` with the value discarded: it leaves the
cache in exactly the state `Get` does (inheriting promotion-to-front and
lazy-expiry deletion) and returns `true` exactly when `Get` succeeds. -/
theorem C8_contains_equiv_get (c : Cache) (k : String) (now : Int) :
    (Contains c k now).1 = (Get c k now).1 ∧
    ((Contains c k now).2 = true ↔ ∃ v, (Get c k now).2 = Except.ok v) := by
  refine ⟨rfl, ?_⟩
  cases hr : (Get c k now).2 with
  | ok v => simp [Contains, hr]
  | error s => simp [Contains, hr]

/-- C9: a cache with capacity ≤ 0 never faults: `Set` still succeeds
(returns `nil`), the capacity check fires on every insert and leaves
exactly the new entry resident (evicting the previously resident entry,
if any), and `evictLRU` is a no-op, not a fault, on an empty recency
order. -/
theorem C9_degenerate_capacity (c : Cache) (k v : String) (ttl now : Int)
    (hcap : c.capacity ≤ 0) (hsize : c.eviction.length ≤ 1) :
    (Set c k v ttl now).2 = none ∧
    (Set c k v ttl now).1.eviction =
      [{ key := k, value := { value := v, expiryTime := now + ttl } }] ∧
    (∀ c2 : Cache, c2.eviction = [] → evictLRU c2 = c2) :=
  ⟨rfl, set_singleton_of_degenerate c k v ttl now hcap hsize,
    fun _ h2 => evictLRU_nil h2⟩

theorem C9_witness :
    (Set (New 0) "z" "q" 7 2).2 = none ∧
    (Set (New 0) "z" "q" 7 2).1.eviction =
      [{ key := "z", value := { value := "q", expiryTime := 9 } }] :=
  ⟨(C9_degenerate_capacity (New 0) "z" "q" 7 2 (by decide) (by decide)).1,
   (C9_degenerate_capacity (New 0) "z" "q" 7 2 (by decide) (by decide)).2.1⟩

/-- C10: every operation preserves the structural consistency invariant
`wf`: the index and the recency order contain exactly the same entries,
each index pair references an entry whose stored key equals the map key,
keys (hence live entries) are unique on both sides, and the index size
equals the list length. -/
theorem C10_structural_invariant (c : Cache) (k v : String) (ttl now : Int)
    (h : wf c) :
    wf (Set c k v ttl now).1 ∧ wf (Get c k now).1 ∧ wf (Contains c k now).1 ∧
    wf (Flush c).1 ∧ wf (evictLRU c) ∧ wf (evictExpiredItems c now) :=
  ⟨set_wf k v ttl now h, get_wf k now h,
    by rw [contains_state]; exact get_wf k now h,
    flush_wf c, evictLRU_wf h, sweep_wf now h⟩

theorem C10_witness : wf (Set (New 2) "a" "x" 1 0).1 :=
  (C10_structural_invariant (New 2) "a" "x" 1 0 (by decide)).1

end Scache
